import Mathlib

/-!
# Verification of the pyparsec combinator library (src/pyparsec/base.py)

A shallow embedding of the library's data model and operations, together with
theorems settling the specification claims.

Python values that flow through the library (tokens, produced values, the
`None` default, strings used as labels) are modelled by the inductive type
`Val`.  A parser's `try_parse` either returns a `ParseResult` or diverges
(the `many` loop, run on a child that succeeds without consuming, never
terminates in the source); divergence is modelled by `Option.none`.
-/

/-- Python values as they appear in the library: `None`, integers (the tokens
used throughout the examples), strings (labels, single characters from
coercion), and lists (collected results). -/
inductive Val where
  | vnone : Val
  | int : Int → Val
  | str : String → Val
  | list : List Val → Val

mutual

def Val.decEq : (a b : Val) → Decidable (a = b)
  | .vnone, .vnone => isTrue rfl
  | .vnone, .int _ => isFalse nofun
  | .vnone, .str _ => isFalse nofun
  | .vnone, .list _ => isFalse nofun
  | .int _, .vnone => isFalse nofun
  | .int _, .str _ => isFalse nofun
  | .int _, .list _ => isFalse nofun
  | .str _, .vnone => isFalse nofun
  | .str _, .int _ => isFalse nofun
  | .str _, .list _ => isFalse nofun
  | .list _, .vnone => isFalse nofun
  | .list _, .int _ => isFalse nofun
  | .list _, .str _ => isFalse nofun
  | .int m, .int n =>
    if h : m = n then isTrue (by rw [h]) else isFalse (fun he => h (Val.int.inj he))
  | .str a, .str b =>
    if h : a = b then isTrue (by rw [h]) else isFalse (fun he => h (Val.str.inj he))
  | .list xs, .list ys =>
    match Val.decEqList xs ys with
    | isTrue h => isTrue (by rw [h])
    | isFalse h => isFalse (fun he => h (Val.list.inj he))

def Val.decEqList : (a b : List Val) → Decidable (a = b)
  | [], [] => isTrue rfl
  | [], _ :: _ => isFalse nofun
  | _ :: _, [] => isFalse nofun
  | x :: xs, y :: ys =>
    match Val.decEq x y, Val.decEqList xs ys with
    | isTrue h1, isTrue h2 => isTrue (by rw [h1, h2])
    | isFalse h1, _ => isFalse (fun he => h1 (List.cons.inj he).1)
    | _, isFalse h2 => isFalse (fun he => h2 (List.cons.inj he).2)

end

instance : DecidableEq Val := Val.decEq

/-- The `ParseResult` namedtuple of base.py: success flag, produced value
(`None` on plain failures), unconsumed remainder, and the `expects` list. -/
structure ParseResult where
  succeeded : Bool
  value : Val
  rest : List Val
  expects : List Val
deriving DecidableEq

/-- `fail(expects, remaining=None)` from base.py: a failed result; `remaining
or []` is the identity on actual lists, since an empty Python list is falsy. -/
def fail (expects : List Val) (remaining : List Val := []) : ParseResult :=
  ⟨false, .vnone, remaining, expects⟩

/-- The combinator tree.  Each constructor is one of the library's parser
classes with its construction-time configuration.  `orNode`/`seqNode` are the
raw `or_`/`seq` objects (their children lists as stored after `Flattens`);
the flattening smart constructors appear below as `orC`/`seqC`.
`transformP` is a parser produced by the `transform` factory (the reshaping
function with its bound arguments, as a `Val → Val`); `suggestP` is one
produced by `transform_possible`, whose `try_parse` delegates unchanged. -/
inductive Parser where
  | onlyP (v : Val)
  | anyP (fakeName : Val)
  | notP (p : Parser) (n : Nat) (fakeName : Val)
  | orNode (children : List Parser)
  | seqNode (children : List Parser) (throwAway : Val)
  | optionalP (p : Parser) (default : Val)
  | manyP (p : Parser)
  | transformP (f : Val → Val) (p : Parser)
  | suggestP (p : Parser)

/-- The throw-away filter of `seq.try_parse`:
`[v for v in values if v != self._throw_away]`. -/
def throwFilter (t : Val) (values : List Val) : List Val :=
  values.filter (fun v => decide (v ≠ t))

mutual

/-- `try_parse` of each parser class.  `none` models divergence (possible
only through the `many` loop over a non-consuming child). -/
def tryParse : Parser → List Val → Option ParseResult
  | .onlyP v, s =>
    match s with
    | [] => some (fail [v] [])
    | x :: xs => if v = x then some ⟨true, x, xs, []⟩ else some (fail [v] (x :: xs))
  | .anyP fn, s =>
    match s with
    | [] => some (fail [fn] [])
    | x :: xs => some ⟨true, x, xs, []⟩
  | .notP p n fn, s =>
    match tryParse p s with
    | none => none
    | some r =>
      if r.succeeded ∨ s.length < n then some (fail [fn] s)
      else some ⟨true, .list (s.take n), s.drop n, []⟩
  | .orNode cs, s => orLoop cs s
  | .seqNode cs t, s => seqLoop cs t s []
  | .optionalP p d, s =>
    match tryParse p s with
    | none => none
    | some r => if r.succeeded then some r else some ⟨true, d, s, []⟩
  | .manyP p, s => manyLoop p s.length s []
  | .transformP f p, s =>
    match tryParse p s with
    | none => none
    | some r => if r.succeeded then some ⟨true, f r.value, r.rest, []⟩ else some r
  | .suggestP p, s => tryParse p s
termination_by p _ => (sizeOf p, 0)

/-- The loop of `or_.try_parse`: first success wins; when every child fails
the last child's result is returned; with no children, `fail([])`. -/
def orLoop : List Parser → List Val → Option ParseResult
  | [], _ => some (fail [])
  | [p], s => tryParse p s
  | p :: q :: rest, s =>
    match tryParse p s with
    | none => none
    | some r => if r.succeeded then some r else orLoop (q :: rest) s
termination_by cs _ => (sizeOf cs, 0)

/-- The loop of `seq.try_parse`: children run in order, threading the
remainder; the collected values are filtered against the throw-away sentinel
on both the success and the failure exit. -/
def seqLoop : List Parser → Val → List Val → List Val → Option ParseResult
  | [], t, rem, values => some ⟨true, .list (throwFilter t values), rem, []⟩
  | p :: ps, t, rem, values =>
    match tryParse p rem with
    | none => none
    | some r =>
      if r.succeeded then seqLoop ps t r.rest (values ++ [r.value])
      else some ⟨false, .list (throwFilter t values), r.rest, r.expects⟩
termination_by ps _ _ _ => (sizeOf ps, 0)

/-- The `while remaining_components:` loop of `many.try_parse`.  A success of
the child that does not shrink the remainder repeats the same state forever
in the source, so it is mapped to `none`; the fuel (initialised to the
remainder's length) only bounds the iterations already forced by that strict
decrease and is never exhausted. -/
def manyLoop : Parser → Nat → List Val → List Val → Option ParseResult
  | _, _, [], values => some ⟨true, .list values, [], []⟩
  | _, 0, _ :: _, _ => none
  | p, fuel + 1, x :: xs, values =>
    match tryParse p (x :: xs) with
    | none => none
    | some r =>
      if r.succeeded then
        if r.rest.length < (x :: xs).length then manyLoop p fuel r.rest (values ++ [r.value])
        else none
      else some ⟨true, .list values, x :: xs, []⟩
termination_by p fuel _ _ => (sizeOf p, fuel + 1)

end

/-- One child's contribution in `Flattens.__init__` as used by `seq`: a
direct child that is itself a `seq` node contributes its (already stored)
children; every other parser contributes itself.  A nested `seq`'s own
throw-away sentinel is discarded by the splice, exactly as in the source. -/
def seqSpliceOne : Parser → List Parser
  | .seqNode cs _ => cs
  | p => [p]

def seqSplice : List Parser → List Parser
  | [] => []
  | p :: ps => seqSpliceOne p ++ seqSplice ps

/-- One child's contribution in `Flattens.__init__` as used by `or_`. -/
def orSpliceOne : Parser → List Parser
  | .orNode cs => cs
  | p => [p]

def orSplice : List Parser → List Parser
  | [] => []
  | p :: ps => orSpliceOne p ++ orSplice ps

/-- The `seq(*parsers, throw_away=None)` constructor: flatten, store the
sentinel (defaulting to Python `None`). -/
def seqC (ps : List Parser) (throwAway : Val := .vnone) : Parser :=
  .seqNode (seqSplice ps) throwAway

/-- The `or_(*parsers)` constructor: flatten. -/
def orC (ps : List Parser) : Parser :=
  .orNode (orSplice ps)

/-- A caller-supplied "parser-like" argument to `_coerce`: a parser, a Python
string (as its character sequence), another iterable, or any other value
(treated as a single token). -/
inductive CoerceArg where
  | parser (p : Parser)
  | pystr (s : List Char)
  | iter (xs : List CoerceArg)
  | token (v : Val)

mutual

/-- `_coerce` from base.py.  A length-1 string becomes `only` of that
one-character string; any other string becomes a `seq` of `only` of each of
its characters (so the empty string becomes `seq()` with no children); an
iterable becomes a `seq` of the coercion of each element. -/
def coerce : CoerceArg → Parser
  | .parser p => p
  | .pystr [c] => .onlyP (.str (String.mk [c]))
  | .pystr cs => seqC (cs.map fun c => .onlyP (.str (String.mk [c])))
  | .iter xs => seqC (coerceList xs)
  | .token v => .onlyP v

def coerceList : List CoerceArg → List Parser
  | [] => []
  | x :: xs => coerce x :: coerceList xs

end

/-- The outcome of `Parser.parse`: the returned value, or one of the two
`ValueError` shapes it raises ("Expected end of input; got <rest>" and
"Expected one of <expects>; got <rest>"). -/
inductive ParseOutcome where
  | ok (value : Val)
  | errTrailing (rest : List Val)
  | errUnexpected (expects : List Val) (rest : List Val)
deriving DecidableEq

/-- `Parser.parse(components, partial=False)` from base.py. -/
def parse (p : Parser) (s : List Val) (partialFlag : Bool := false) : Option ParseOutcome :=
  match tryParse p s with
  | none => none
  | some r =>
    if r.succeeded = true ∧ (partialFlag = true ∨ r.rest = []) then some (.ok r.value)
    else if r.succeeded = true then some (.errTrailing r.rest)
    else some (.errUnexpected r.expects r.rest)

/-- Modelled from the spec: `manyOf` is absent from src/pyparsec/base.py (only
the spec describes it).  One scan of §4.4: find the first pair, in listed
order, whose parser still has remaining quota (`some 0` is exhausted, `none`
is unlimited) and succeeds against the current remainder; return its result
and the pair list with that parser's quota decremented (no-op if unlimited).
`some none` means a full scan found no eligible match. -/
def manyOfScan : List (Parser × Option Nat) → List Val →
    Option (Option (ParseResult × List (Parser × Option Nat)))
  | [], _ => some none
  | (p, q) :: rest, s =>
    if q = some 0 then
      match manyOfScan rest s with
      | none => none
      | some none => some none
      | some (some (r, rest')) => some (some (r, (p, q) :: rest'))
    else
      match tryParse p s with
      | none => none
      | some r =>
        if r.succeeded then some (some (r, (p, q.map (· - 1)) :: rest))
        else
          match manyOfScan rest s with
          | none => none
          | some none => some none
          | some (some (r', rest')) => some (some (r', (p, q) :: rest'))

/-- Total bounded quota of a pair list (unlimited parsers contribute 0). -/
def sumQuota : List (Parser × Option Nat) → Nat
  | [] => 0
  | (_, some k) :: rest => k + sumQuota rest
  | (_, none) :: rest => sumQuota rest

/-- Modelled from the spec: the greedy restart loop of `manyOf`.  Each
accepted match either consumes input or spends bounded quota, so the measure
`remainder length + total bounded quota` strictly decreases; a match that
does neither (an unlimited, non-consuming parser) repeats the same state
forever in the spec's procedure and is mapped to divergence (`none`).  The
fuel, initialised above that measure, is never exhausted from the entry
point. -/
def manyOfLoop : Nat → List (Parser × Option Nat) → List Val → List Val → Option ParseResult
  | 0, _, _, _ => none
  | fuel + 1, pairs, s, values =>
    match manyOfScan pairs s with
    | none => none
    | some none => some ⟨true, .list values, s, []⟩
    | some (some (r, pairs')) =>
      if r.rest.length + sumQuota pairs' < s.length + sumQuota pairs then
        manyOfLoop fuel pairs' r.rest (values ++ [r.value])
      else none

/-- Modelled from the spec: `manyOf(parsersWithMax).tryParse(s)` (§4.4
quota-bounded unordered repetition; always succeeds, collecting greedy
first-match results until no quota-eligible parser matches). -/
def manyOf (pairs : List (Parser × Option Nat)) (s : List Val) : Option ParseResult :=
  manyOfLoop (s.length + sumQuota pairs + 1) pairs s []

/-! ## The suffix invariant -/

theorem orLoop_suffix (s : List Val) :
    ∀ (cs : List Parser) (r : ParseResult),
      (∀ p ∈ cs, ∀ r', tryParse p s = some r' → r'.rest <:+ s) →
      orLoop cs s = some r → r.rest <:+ s := by
  intro cs
  induction cs with
  | nil =>
    intro r _ h
    simp only [orLoop, fail, Option.some.injEq] at h
    subst h
    exact List.nil_suffix
  | cons p cs ih =>
    intro r hc h
    cases cs with
    | nil =>
      simp only [orLoop] at h
      exact hc p (List.mem_singleton.mpr rfl) r h
    | cons q rest =>
      simp only [orLoop] at h
      cases h' : tryParse p s with
      | none => simp only [h'] at h; cases h
      | some rp =>
        simp only [h'] at h
        by_cases hs : rp.succeeded = true
        · simp only [if_pos hs, Option.some.injEq] at h
          subst h
          exact hc p (by simp) rp h'
        · simp only [if_neg hs] at h
          exact ih r (fun p' hp' => hc p' (List.mem_cons_of_mem p hp')) h

theorem seqLoop_suffix (t : Val) :
    ∀ (ps : List Parser) (rem values : List Val) (r : ParseResult),
      (∀ p ∈ ps, ∀ s' r', tryParse p s' = some r' → r'.rest <:+ s') →
      seqLoop ps t rem values = some r → r.rest <:+ rem := by
  intro ps
  induction ps with
  | nil =>
    intro rem values r _ h
    simp only [seqLoop, Option.some.injEq] at h
    subst h
    exact List.suffix_refl rem
  | cons p ps ih =>
    intro rem values r hc h
    simp only [seqLoop] at h
    cases h' : tryParse p rem with
    | none => simp only [h'] at h; cases h
    | some rp =>
      simp only [h'] at h
      by_cases hs : rp.succeeded = true
      · simp only [if_pos hs] at h
        have h1 : rp.rest <:+ rem := hc p (by simp) rem rp h'
        have h2 := ih rp.rest (values ++ [rp.value]) r
          (fun p' hp' => hc p' (List.mem_cons_of_mem p hp')) h
        exact h2.trans h1
      · simp only [if_neg hs, Option.some.injEq] at h
        subst h
        exact hc p (by simp) rem rp h'

theorem manyLoop_suffix (p : Parser)
    (hp : ∀ s' r', tryParse p s' = some r' → r'.rest <:+ s') :
    ∀ (fuel : Nat) (rem values : List Val) (r : ParseResult),
      manyLoop p fuel rem values = some r → r.rest <:+ rem := by
  intro fuel
  induction fuel with
  | zero =>
    intro rem values r h
    cases rem with
    | nil =>
      simp only [manyLoop, Option.some.injEq] at h
      subst h
      exact List.suffix_refl []
    | cons x xs => simp only [manyLoop] at h; cases h
  | succ fuel ih =>
    intro rem values r h
    cases rem with
    | nil =>
      simp only [manyLoop, Option.some.injEq] at h
      subst h
      exact List.suffix_refl []
    | cons x xs =>
      simp only [manyLoop] at h
      cases h' : tryParse p (x :: xs) with
      | none => simp only [h'] at h; cases h
      | some rp =>
        simp only [h'] at h
        by_cases hs : rp.succeeded = true
        · simp only [if_pos hs] at h
          by_cases hl : rp.rest.length < (x :: xs).length
          · simp only [if_pos hl] at h
            exact (ih rp.rest (values ++ [rp.value]) r h).trans (hp _ rp h')
          · simp only [if_neg hl] at h; cases h
        · simp only [if_neg hs] at h
          cases h
          exact List.suffix_refl (x :: xs)

/-- The `rest` field of every defined `try_parse` outcome — success or
failure — is a contiguous suffix of the input sequence. -/
theorem tryParse_suffix :
    ∀ (p : Parser) (s : List Val) (r : ParseResult),
      tryParse p s = some r → r.rest <:+ s := by
  have H : ∀ (n : Nat) (p : Parser), sizeOf p < n →
      ∀ (s : List Val) (r : ParseResult), tryParse p s = some r → r.rest <:+ s := by
    intro n
    induction n with
    | zero => intro p hp; omega
    | succ n ih =>
      intro p hp s r h
      cases p with
      | onlyP v =>
        cases s with
        | nil => simp only [tryParse] at h; cases h; exact List.nil_suffix
        | cons x xs =>
          simp only [tryParse] at h
          by_cases hv : v = x
          · simp only [if_pos hv] at h; cases h; exact (List.suffix_cons x xs)
          · simp only [if_neg hv] at h; cases h; exact List.suffix_refl (x :: xs)
      | anyP fn =>
        cases s with
        | nil => simp only [tryParse] at h; cases h; exact List.nil_suffix
        | cons x xs => simp only [tryParse] at h; cases h; exact List.suffix_cons x xs
      | notP q m fn =>
        simp only [tryParse] at h
        cases h' : tryParse q s with
        | none => simp only [h'] at h; cases h
        | some rq =>
          simp only [h'] at h
          by_cases hc : rq.succeeded = true ∨ s.length < m
          · simp only [if_pos hc] at h; cases h; exact List.suffix_refl s
          · simp only [if_neg hc] at h; cases h; exact List.drop_suffix m s
      | orNode cs =>
        simp only [tryParse] at h
        refine orLoop_suffix s cs r (fun q hq r' h' => ?_) h
        refine ih q ?_ s r' h'
        have h1 := List.sizeOf_lt_of_mem hq
        have h2 : sizeOf (Parser.orNode cs) = 1 + sizeOf cs := by simp
        omega
      | seqNode cs t =>
        simp only [tryParse] at h
        refine seqLoop_suffix t cs s [] r (fun q hq s' r' h' => ?_) h
        refine ih q ?_ s' r' h'
        have h1 := List.sizeOf_lt_of_mem hq
        have h2 : sizeOf (Parser.seqNode cs t) = 1 + sizeOf cs + sizeOf t := by simp
        omega
      | optionalP q d =>
        simp only [tryParse] at h
        cases h' : tryParse q s with
        | none => simp only [h'] at h; cases h
        | some rq =>
          simp only [h'] at h
          have hq : sizeOf q < n := by
            have h2 : sizeOf (Parser.optionalP q d) = 1 + sizeOf q + sizeOf d := by simp
            omega
          by_cases hs : rq.succeeded = true
          · simp only [if_pos hs, Option.some.injEq] at h
            subst h
            exact ih q hq s rq h'
          · simp only [if_neg hs, Option.some.injEq] at h
            subst h
            exact List.suffix_refl s
      | manyP q =>
        simp only [tryParse] at h
        refine manyLoop_suffix q (fun s' r' h' => ?_) s.length s [] r h
        refine ih q ?_ s' r' h'
        have h2 : sizeOf (Parser.manyP q) = 1 + sizeOf q := by simp
        omega
      | transformP f q =>
        simp only [tryParse] at h
        cases h' : tryParse q s with
        | none => simp only [h'] at h; cases h
        | some rq =>
          simp only [h'] at h
          have hq : sizeOf q < n := by
            have h2 : sizeOf (Parser.transformP f q) = 1 + sizeOf f + sizeOf q := by simp
            omega
          by_cases hs : rq.succeeded = true
          · simp only [if_pos hs, Option.some.injEq] at h
            subst h
            exact ih q hq s rq h'
          · simp only [if_neg hs, Option.some.injEq] at h
            subst h
            exact ih q hq s rq h'
      | suggestP q =>
        simp only [tryParse] at h
        refine ih q ?_ s r h
        have h2 : sizeOf (Parser.suggestP q) = 1 + sizeOf q := by simp
        omega
  intro p s r h
  exact H (sizeOf p + 1) p (Nat.lt_succ_self _) s r h

/-! ## Concatenation: running all children in order -/

/-- All children of a concatenation succeed in order on `s`, producing the
values `vs` (in order, nothing dropped) and the final remainder `rest`. -/
inductive RunSeq : List Parser → List Val → List Val → List Val → Prop where
  | nil (s : List Val) : RunSeq [] s [] s
  | cons {p : Parser} {ps : List Parser} {s vs rest : List Val} (r : ParseResult)
      (hr : tryParse p s = some r) (hs : r.succeeded = true)
      (htail : RunSeq ps r.rest vs rest) : RunSeq (p :: ps) s (r.value :: vs) rest

theorem seqLoop_collect (t : Val) {cs : List Parser} {s vs rest : List Val}
    (h : RunSeq cs s vs rest) :
    ∀ acc, seqLoop cs t s acc = some ⟨true, .list (throwFilter t (acc ++ vs)), rest, []⟩ := by
  induction h with
  | nil s => intro acc; simp only [seqLoop, List.append_nil]
  | cons r hr hs htail ih =>
    intro acc
    simp only [seqLoop, hr, if_pos hs]
    rw [ih (acc ++ [r.value])]
    simp only [List.append_assoc, List.singleton_append]

/-! ## Lemmas about the many loop -/

theorem manyLoop_some_succeeds (p : Parser) :
    ∀ (fuel : Nat) (rem values : List Val) (r : ParseResult),
      manyLoop p fuel rem values = some r → r.succeeded = true ∧ r.expects = [] := by
  intro fuel
  induction fuel with
  | zero =>
    intro rem values r h
    cases rem with
    | nil =>
      simp only [manyLoop, Option.some.injEq] at h
      subst h
      exact ⟨rfl, rfl⟩
    | cons x xs => simp only [manyLoop] at h; cases h
  | succ fuel ih =>
    intro rem values r h
    cases rem with
    | nil =>
      simp only [manyLoop, Option.some.injEq] at h
      subst h
      exact ⟨rfl, rfl⟩
    | cons x xs =>
      simp only [manyLoop] at h
      cases h' : tryParse p (x :: xs) with
      | none => simp only [h'] at h; cases h
      | some rp =>
        simp only [h'] at h
        by_cases hs : rp.succeeded = true
        · simp only [if_pos hs] at h
          by_cases hl : rp.rest.length < (x :: xs).length
          · simp only [if_pos hl] at h
            exact ih rp.rest (values ++ [rp.value]) r h
          · simp only [if_neg hl] at h; cases h
        · simp only [if_neg hs, Option.some.injEq] at h
          subst h
          exact ⟨rfl, rfl⟩

theorem manyLoop_exhausted (p : Parser) :
    ∀ (fuel : Nat) (rem values : List Val) (r : ParseResult),
      manyLoop p fuel rem values = some r →
      r.rest = [] ∨ ∃ rf, tryParse p r.rest = some rf ∧ rf.succeeded = false := by
  intro fuel
  induction fuel with
  | zero =>
    intro rem values r h
    cases rem with
    | nil =>
      simp only [manyLoop, Option.some.injEq] at h
      subst h
      exact Or.inl rfl
    | cons x xs => simp only [manyLoop] at h; cases h
  | succ fuel ih =>
    intro rem values r h
    cases rem with
    | nil =>
      simp only [manyLoop, Option.some.injEq] at h
      subst h
      exact Or.inl rfl
    | cons x xs =>
      simp only [manyLoop] at h
      cases h' : tryParse p (x :: xs) with
      | none => simp only [h'] at h; cases h
      | some rp =>
        simp only [h'] at h
        by_cases hs : rp.succeeded = true
        · simp only [if_pos hs] at h
          by_cases hl : rp.rest.length < (x :: xs).length
          · simp only [if_pos hl] at h
            exact ih rp.rest (values ++ [rp.value]) r h
          · simp only [if_neg hl] at h; cases h
        · simp only [if_neg hs, Option.some.injEq] at h
          subst h
          exact Or.inr ⟨rp, h', by simpa using hs⟩

theorem manyLoop_total (p : Parser)
    (hterm : ∀ s, (tryParse p s).isSome = true)
    (hcons : ∀ s r, tryParse p s = some r → r.succeeded = true → s ≠ [] →
      r.rest.length < s.length) :
    ∀ (fuel : Nat) (rem values : List Val), rem.length ≤ fuel →
      (manyLoop p fuel rem values).isSome = true := by
  intro fuel
  induction fuel with
  | zero =>
    intro rem values hle
    cases rem with
    | nil => simp [manyLoop]
    | cons x xs => simp at hle
  | succ fuel ih =>
    intro rem values hle
    cases rem with
    | nil => simp [manyLoop]
    | cons x xs =>
      cases h' : tryParse p (x :: xs) with
      | none => have := hterm (x :: xs); rw [h'] at this; cases this
      | some rp =>
        by_cases hs : rp.succeeded = true
        · have hl : rp.rest.length < (x :: xs).length :=
            hcons (x :: xs) rp h' hs (by simp)
          have hrec := ih rp.rest (values ++ [rp.value])
            (by simp only [List.length_cons] at hl hle; omega)
          simp only [manyLoop, h', if_pos hs, if_pos hl]
          exact hrec
        · simp only [manyLoop, h', if_neg hs]
          simp

/-! ## Flattening -/

def isSeqNode : Parser → Bool
  | .seqNode _ _ => true
  | _ => false

def isOrNode : Parser → Bool
  | .orNode _ => true
  | _ => false

/-- The §3 invariant for `seq`: if `p` is a `seq` node, none of its direct
children is a `seq` node. -/
def seqFlat (p : Parser) : Prop :=
  ∀ cs t, p = .seqNode cs t → ∀ c ∈ cs, isSeqNode c = false

/-- The §3 invariant for `or_`. -/
def orFlat (p : Parser) : Prop :=
  ∀ cs, p = .orNode cs → ∀ c ∈ cs, isOrNode c = false

theorem seqSpliceOne_eq (p : Parser) :
    (∃ cs t, p = .seqNode cs t ∧ seqSpliceOne p = cs) ∨
    (isSeqNode p = false ∧ seqSpliceOne p = [p]) := by
  cases p <;> simp [seqSpliceOne, isSeqNode]

theorem orSpliceOne_eq (p : Parser) :
    (∃ cs, p = .orNode cs ∧ orSpliceOne p = cs) ∨
    (isOrNode p = false ∧ orSpliceOne p = [p]) := by
  cases p <;> simp [orSpliceOne, isOrNode]

theorem seqSplice_flat (ps : List Parser) (hps : ∀ p ∈ ps, seqFlat p) :
    ∀ q ∈ seqSplice ps, isSeqNode q = false := by
  induction ps with
  | nil => intro q hq; simp [seqSplice] at hq
  | cons p ps ih =>
    intro q hq
    rw [seqSplice] at hq
    rcases List.mem_append.mp hq with hq1 | hq2
    · rcases seqSpliceOne_eq p with ⟨cs, t, hpe, hsp⟩ | ⟨hns, hsp⟩
      · rw [hsp] at hq1
        exact hps p (by simp) cs t hpe q hq1
      · rw [hsp] at hq1
        simp only [List.mem_singleton] at hq1
        subst hq1
        exact hns
    · exact ih (fun p' hp' => hps p' (List.mem_cons_of_mem p hp')) q hq2

theorem orSplice_flat (ps : List Parser) (hps : ∀ p ∈ ps, orFlat p) :
    ∀ q ∈ orSplice ps, isOrNode q = false := by
  induction ps with
  | nil => intro q hq; simp [orSplice] at hq
  | cons p ps ih =>
    intro q hq
    rw [orSplice] at hq
    rcases List.mem_append.mp hq with hq1 | hq2
    · rcases orSpliceOne_eq p with ⟨cs, hpe, hsp⟩ | ⟨hns, hsp⟩
      · rw [hsp] at hq1
        exact hps p (by simp) cs hpe q hq1
      · rw [hsp] at hq1
        simp only [List.mem_singleton] at hq1
        subst hq1
        exact hns
    · exact ih (fun p' hp' => hps p' (List.mem_cons_of_mem p hp')) q hq2

theorem seqSplice_append (xs ys : List Parser) :
    seqSplice (xs ++ ys) = seqSplice xs ++ seqSplice ys := by
  induction xs with
  | nil => simp [seqSplice]
  | cons p xs ih =>
    rw [List.cons_append, seqSplice, ih, seqSplice, List.append_assoc]

/-- Construction inlines a nested `seq` into the parent's child list, so the
two trees are the same object — hence behave identically. -/
theorem seqC_nested (a b c : Parser) : seqC [seqC [a, b], c] = seqC [a, b, c] := by
  show Parser.seqNode (seqSplice [Parser.seqNode (seqSplice [a, b]) .vnone, c]) .vnone =
    Parser.seqNode (seqSplice [a, b, c]) .vnone
  have h1 : seqSplice [Parser.seqNode (seqSplice [a, b]) .vnone, c] =
      seqSplice [a, b] ++ seqSplice [c] := by
    rw [seqSplice]
    rfl
  have h2 : seqSplice [a, b, c] = seqSplice [a, b] ++ seqSplice [c] := by
    have : ([a, b, c] : List Parser) = [a, b] ++ [c] := rfl
    rw [this, seqSplice_append]
  rw [h1, h2]

/-! ## Claims -/

/-- Claim C1, counterexample: a `seq` constructed without specifying a
throw-away sentinel (so `throw_away` is its default `None`) drops a child's
produced `None` value from the collected list: `seq(optional(only(1)))` on
`[2]` yields `[]`, not `[None]` as the claim requires. -/
theorem C1_counterexample :
    tryParse (seqC [.optionalP (.onlyP (.int 1)) .vnone]) [.int 2] =
      some ⟨true, .list [], [.int 2], []⟩ ∧
    Val.list [] ≠ Val.list [Val.vnone] := by
  refine ⟨?_, by decide⟩
  simp [seqC, seqSplice, seqSpliceOne, tryParse, seqLoop, throwFilter, fail]

/-- Claim C1 (amended): when all children of a concatenation succeed in
order, `tryParse` succeeds, threading the remainder, and its value is the
ordered list of the children's produced values with those equal to the
throw-away sentinel dropped; the sentinel defaults to Python `None` when not
specified (second conjunct), so a child producing `None` is dropped even when
no sentinel was explicitly configured. -/
theorem C1_seq_collects_filtered (cs : List Parser) (t : Val) (s vs rest : List Val)
    (h : RunSeq cs s vs rest) :
    tryParse (.seqNode cs t) s = some ⟨true, .list (throwFilter t vs), rest, []⟩ ∧
    ∀ ps : List Parser, seqC ps = .seqNode (seqSplice ps) .vnone := by
  refine ⟨?_, fun ps => rfl⟩
  simp only [tryParse]
  have hc := seqLoop_collect t h []
  simpa using hc

/-- Claim C1, witness: the amended theorem applied to `seq(only(1))` on
`[1]`. -/
theorem C1_witness :
    tryParse (.seqNode [.onlyP (.int 1)] .vnone) [.int 1] =
      some ⟨true, .list [.int 1], [], []⟩ ∧
    ∀ ps : List Parser, seqC ps = .seqNode (seqSplice ps) .vnone :=
  C1_seq_collects_filtered [.onlyP (.int 1)] .vnone [.int 1] [.int 1] []
    (RunSeq.cons ⟨true, .int 1, [], []⟩ (by simp [tryParse]) rfl (RunSeq.nil []))

/-- Claim C2, counterexample: running the spec's own scan-and-restart
procedure for `manyOf([(only(1), 2), (only(2), unlimited)])` on
`[1, 1, 1, 2, 2]` stops at the third `1` (its quota is spent and `only(2)`
does not match at the front), so the value is `[1, 1]` with remainder
`[1, 2, 2]` — not `[1, 1, 2, 2]` with remainder `[1]` as the claim states
(that remainder is not even a suffix of the input). -/
theorem C2_counterexample :
    manyOf [(.onlyP (.int 1), some 2), (.onlyP (.int 2), none)]
        [.int 1, .int 1, .int 1, .int 2, .int 2] =
      some ⟨true, .list [.int 1, .int 1], [.int 1, .int 2, .int 2], []⟩ ∧
    some (ParseResult.mk true (.list [.int 1, .int 1]) [.int 1, .int 2, .int 2] []) ≠
      some (ParseResult.mk true (.list [.int 1, .int 1, .int 2, .int 2]) [.int 1] []) := by
  refine ⟨?_, by decide⟩
  simp [manyOf, manyOfLoop, manyOfScan, sumQuota, tryParse, fail]

/-- Claim C2 (amended): `manyOf` greedily restarts its scan after each match
and respects each parser's cap, but consumes only from the front: on
`[1, 1, 1, 2, 2]` it stops at the third `1` with value `[1, 1]` and remainder
`[1, 2, 2]`; on `[1, 2, 1, 2, 1]` it consumes two `1`s and two `2`s and
leaves the final `1` unconsumed because `only(1)`'s quota of 2 is spent. -/
theorem C2_manyOf_caps :
    manyOf [(.onlyP (.int 1), some 2), (.onlyP (.int 2), none)]
        [.int 1, .int 1, .int 1, .int 2, .int 2] =
      some ⟨true, .list [.int 1, .int 1], [.int 1, .int 2, .int 2], []⟩ ∧
    manyOf [(.onlyP (.int 1), some 2), (.onlyP (.int 2), none)]
        [.int 1, .int 2, .int 1, .int 2, .int 1] =
      some ⟨true, .list [.int 1, .int 2, .int 1, .int 2], [.int 1], []⟩ := by
  constructor <;> simp [manyOf, manyOfLoop, manyOfScan, sumQuota, tryParse, fail]

/-- Claim C4: the `rest` field of every `try_parse` outcome — on success or
on failure — is a contiguous suffix of the input sequence: no element is
skipped, duplicated or reordered, and consumption happens only from the
front. -/
theorem C4_rest_suffix (p : Parser) (s : List Val) (r : ParseResult)
    (h : tryParse p s = some r) : r.rest <:+ s :=
  tryParse_suffix p s r h

/-- Claim C4, witness: `only(1)` on `[1]` leaves remainder `[]`, a suffix. -/
theorem C4_witness :
    tryParse (.onlyP (.int 1)) [.int 1] = some ⟨true, .int 1, [], []⟩ ∧
    ([] : List Val) <:+ [Val.int 1] :=
  ⟨by simp [tryParse],
    C4_rest_suffix (.onlyP (.int 1)) [.int 1] ⟨true, .int 1, [], []⟩ (by simp [tryParse])⟩

/-- Claim C9: coercing an empty string or an empty iterable yields a
concatenation with zero children, which on every input succeeds with value
`[]` and the input unchanged as remainder. -/
theorem C9_empty_coercion :
    coerce (.pystr []) = .seqNode [] .vnone ∧
    coerce (.iter []) = .seqNode [] .vnone ∧
    ∀ s : List Val, tryParse (.seqNode [] .vnone) s = some ⟨true, .list [], s, []⟩ := by
  refine ⟨?_, ?_, fun s => ?_⟩
  · simp [coerce, seqC, seqSplice]
  · simp [coerce, coerceList, seqC, seqSplice]
  · simp [tryParse, seqLoop, throwFilter]

/-- Claim C5: alternation tries children in listed order against the full
input and returns the first success (first-match-wins, no longest-match
preference — `or(only(1), only(1))` on `[1]` consumes exactly one element via
the first child); when every child fails it returns exactly the last child's
failing outcome; and with no children it fails with empty `expects` (and an
empty remainder, from `fail([])`). -/
theorem C5_or_first_match :
    (∀ s : List Val, tryParse (.orNode []) s = some ⟨false, .vnone, [], []⟩) ∧
    (∀ (a : Parser) (cs : List Parser) (s : List Val) (r : ParseResult),
      tryParse a s = some r → r.succeeded = true →
      tryParse (.orNode (a :: cs)) s = some r) ∧
    (∀ (a : Parser) (cs : List Parser) (s : List Val) (r : ParseResult),
      tryParse a s = some r → r.succeeded = false → cs ≠ [] →
      tryParse (.orNode (a :: cs)) s = tryParse (.orNode cs) s) ∧
    (∀ (a : Parser) (s : List Val) (r : ParseResult),
      tryParse a s = some r → r.succeeded = false →
      tryParse (.orNode [a]) s = some r) ∧
    tryParse (orC [.onlyP (.int 1), .onlyP (.int 1)]) [.int 1] =
      some ⟨true, .int 1, [], []⟩ := by
  refine ⟨fun s => ?_, fun a cs s r h hs => ?_, fun a cs s r h hs hne => ?_,
    fun a s r h hs => ?_, ?_⟩
  · simp [tryParse, orLoop, fail]
  · cases cs with
    | nil => simp only [tryParse, orLoop]; exact h
    | cons q rest => simp only [tryParse, orLoop, h, if_pos hs]
  · cases cs with
    | nil => exact absurd rfl hne
    | cons q rest =>
      simp only [tryParse, orLoop, h]
      rw [if_neg (by simp [hs])]
  · simp only [tryParse, orLoop]; exact h
  · simp [orC, orSplice, orSpliceOne, tryParse, orLoop]

/-- Claim C5, witness: the first-success conjunct applied to
`or(only(1), only(2))` on `[1]`. -/
theorem C5_witness :
    tryParse (.onlyP (.int 1)) [.int 1] = some ⟨true, .int 1, [], []⟩ ∧
    tryParse (.orNode [.onlyP (.int 1), .onlyP (.int 2)]) [.int 1] =
      some ⟨true, .int 1, [], []⟩ :=
  ⟨by simp [tryParse],
    C5_or_first_match.2.1 (.onlyP (.int 1)) [.onlyP (.int 2)] [.int 1]
      ⟨true, .int 1, [], []⟩ (by simp [tryParse]) rfl⟩

/-- Claim C6: `not(p, n)` fails (with `expects = [fakeName]` and the
remainder unchanged) exactly when `p` succeeds on the input or fewer than `n`
elements remain; otherwise it succeeds consuming exactly the first `n`
elements, producing the list of those `n` elements as its value.  In
particular `not(not(p))` is a zero-width positive lookahead for `p` (third
conjunct). -/
theorem C6_not_lookahead (p : Parser) (n : Nat) (fn : Val) (s : List Val)
    (ri : ParseResult) (h : tryParse p s = some ri) :
    (tryParse (.notP p n fn) s = some (fail [fn] s) ↔
      (ri.succeeded = true ∨ s.length < n)) ∧
    (tryParse (.notP p n fn) s = some ⟨true, .list (s.take n), s.drop n, []⟩ ↔
      ¬(ri.succeeded = true ∨ s.length < n)) ∧
    (tryParse (.notP (.notP p 0 fn) 0 fn) s =
      if ri.succeeded = true then some ⟨true, .list [], s, []⟩
      else some (fail [fn] s)) := by
  have hmain : tryParse (.notP p n fn) s =
      if ri.succeeded = true ∨ s.length < n then some (fail [fn] s)
      else some ⟨true, .list (s.take n), s.drop n, []⟩ := by
    simp only [tryParse, h]
  have hinner : tryParse (.notP p 0 fn) s =
      if ri.succeeded = true then some (fail [fn] s)
      else some ⟨true, .list [], s, []⟩ := by
    simp only [tryParse, h, Nat.not_lt_zero, or_false, List.take_zero, List.drop_zero]
  refine ⟨?_, ?_, ?_⟩
  · rw [hmain]
    by_cases hc : ri.succeeded = true ∨ s.length < n
    · simp [hc]
    · simp only [if_neg hc, iff_false_intro hc, iff_false]
      intro he
      have := congrArg (fun o => (Option.getD o (fail [] [])).succeeded) he
      simp [fail] at this
  · rw [hmain]
    by_cases hc : ri.succeeded = true ∨ s.length < n
    · simp only [if_pos hc, iff_false_intro (not_not_intro hc), iff_false]
      intro he
      have := congrArg (fun o => (Option.getD o (fail [] [])).succeeded) he
      simp [fail] at this
    · simp [hc]
  · by_cases hs : ri.succeeded = true
    · rw [if_pos hs]
      rw [if_pos hs] at hinner
      simp [tryParse, hinner, fail]
    · rw [if_neg hs]
      rw [if_neg hs] at hinner
      simp [tryParse, hinner, fail]

/-- Claim C6, witness: `not(only(1), n=1)` on `[2, 3]` (where `only(1)`
fails) consumes one element. -/
theorem C6_witness :
    tryParse (.onlyP (.int 1)) [.int 2, .int 3] =
      some (fail [.int 1] [.int 2, .int 3]) ∧
    (tryParse (.notP (.onlyP (.int 1)) 1 (.str "x")) [.int 2, .int 3] =
      some ⟨true, .list [.int 2], [.int 3], []⟩ ↔
      ¬((fail [Val.int 1] [.int 2, .int 3]).succeeded = true ∨
        ([Val.int 2, Val.int 3] : List Val).length < 1)) :=
  ⟨by simp [tryParse, fail],
    (C6_not_lookahead (.onlyP (.int 1)) 1 (.str "x") [.int 2, .int 3]
      (fail [.int 1] [.int 2, .int 3]) (by simp [tryParse, fail])).2.1⟩

/-- Claim C3: `parse(s, partial)` returns the produced value exactly when
`try_parse` succeeded and (`partial` is true or the remainder is empty);
raises the "unexpected trailing input" error (carrying the remainder) exactly
when `try_parse` succeeded with a non-empty remainder and `partial` is false;
and raises the "unexpected input" error (carrying `expects` and the
remainder) exactly when `try_parse` failed. -/
theorem C3_parse_errors (p : Parser) (s : List Val) (pf : Bool) (r : ParseResult)
    (h : tryParse p s = some r) :
    (parse p s pf = some (.ok r.value) ↔
      (r.succeeded = true ∧ (pf = true ∨ r.rest = []))) ∧
    (parse p s pf = some (.errTrailing r.rest) ↔
      (r.succeeded = true ∧ r.rest ≠ [] ∧ pf = false)) ∧
    (parse p s pf = some (.errUnexpected r.expects r.rest) ↔
      r.succeeded = false) := by
  simp only [parse, h]
  by_cases h1 : r.succeeded = true ∧ (pf = true ∨ r.rest = [])
  · rw [if_pos h1]
    obtain ⟨hs, hor⟩ := h1
    refine ⟨by simp [hs, hor], ?_, ?_⟩
    · simp only [Option.some.injEq]
      constructor
      · intro he; cases he
      · rintro ⟨-, hne, hpf⟩
        rcases hor with h2 | h2
        · rw [h2] at hpf; cases hpf
        · exact absurd h2 hne
    · simp only [Option.some.injEq]
      constructor
      · intro he; cases he
      · intro hf; rw [hs] at hf; cases hf
  · rw [if_neg h1]
    by_cases hs : r.succeeded = true
    · rw [if_pos hs]
      have hrest : r.rest ≠ [] := fun he => h1 ⟨hs, Or.inr he⟩
      have hpf : pf = false := by
        cases pf
        · rfl
        · exact absurd ⟨hs, Or.inl rfl⟩ h1
      refine ⟨?_, by simp [hs, hrest, hpf], ?_⟩
      · simp only [Option.some.injEq]
        constructor
        · intro he; cases he
        · intro hc; exact absurd hc h1
      · simp only [Option.some.injEq]
        constructor
        · intro he; cases he
        · intro hf; rw [hs] at hf; cases hf
    · rw [if_neg hs]
      have hf : r.succeeded = false := by
        cases hb : r.succeeded
        · rfl
        · exact absurd hb hs
      refine ⟨?_, ?_, by simp [hf]⟩
      · simp only [Option.some.injEq]
        constructor
        · intro he; cases he
        · rintro ⟨hst, -⟩; exact absurd hst hs
      · simp only [Option.some.injEq]
        constructor
        · intro he; cases he
        · rintro ⟨hst, -, -⟩; exact absurd hst hs

/-- Claim C3, witness: `only(1).parse([1], partial=False)` returns the value
`1`. -/
theorem C3_witness :
    tryParse (.onlyP (.int 1)) [.int 1] = some ⟨true, .int 1, [], []⟩ ∧
    (parse (.onlyP (.int 1)) [.int 1] false = some (.ok (.int 1)) ↔
      (true = true ∧ (false = true ∨ ([] : List Val) = []))) :=
  ⟨by simp [tryParse],
    (C3_parse_errors (.onlyP (.int 1)) [.int 1] false ⟨true, .int 1, [], []⟩
      (by simp [tryParse])).1⟩

theorem many_idempotent (p : Parser) (s : List Val) (r : ParseResult)
    (h : tryParse (.manyP p) s = some r) :
    tryParse (.manyP p) r.rest = some ⟨true, .list [], r.rest, []⟩ := by
  simp only [tryParse] at h ⊢
  rcases manyLoop_exhausted p s.length s [] r h with hnil | ⟨rf, hrf, hrs⟩
  · rw [hnil]; simp [manyLoop]
  · cases he : r.rest with
    | nil => simp [manyLoop]
    | cons x xs =>
      rw [he] at hrf
      simp only [List.length_cons, manyLoop, hrf]
      rw [if_neg (by simp [hrs])]

/-- Claim C7 (amended): whenever the `many` loop terminates it succeeds with
empty `expects`, collecting values until the child's first failure —
`many(only(1))` on `[1, 1, 2]` yields `[1, 1]` with remainder `[2]`, and on
`[2]` yields `[]` with `[2]` unchanged — and re-applying `many(p)` to its own
remainder yields the empty value list and the same remainder (idempotence at
exhaustion).  The unrestricted claim fails: over a child that succeeds
without consuming, the loop never returns (see the counterexample). -/
theorem C7_many_succeeds (p : Parser) (s : List Val) (r : ParseResult)
    (h : tryParse (.manyP p) s = some r) :
    r.succeeded = true ∧ r.expects = [] ∧
    tryParse (.manyP p) r.rest = some ⟨true, .list [], r.rest, []⟩ ∧
    tryParse (.manyP (.onlyP (.int 1))) [.int 1, .int 1, .int 2] =
      some ⟨true, .list [.int 1, .int 1], [.int 2], []⟩ ∧
    tryParse (.manyP (.onlyP (.int 1))) [.int 2] =
      some ⟨true, .list [], [.int 2], []⟩ := by
  have h2 := h
  simp only [tryParse] at h2
  obtain ⟨ha, hb⟩ := manyLoop_some_succeeds p s.length s [] r h2
  refine ⟨ha, hb, many_idempotent p s r h, ?_, ?_⟩
  · simp [tryParse, manyLoop, fail]
  · simp [tryParse, manyLoop, fail]

/-- Claim C7, counterexample: `many` over a child that succeeds without
consuming never returns — `many(optional(only(1)))` on `[2]` diverges (the
optional child succeeds with value `None` and the remainder unchanged on
every iteration), so "many(p).tryParse(s) always succeeds for every parser
p" is false. -/
theorem C7_counterexample :
    tryParse (.manyP (.optionalP (.onlyP (.int 1)) .vnone)) [.int 2] = none := by
  simp [tryParse, manyLoop, fail]

/-- Claim C7, witness: `many(only(1))` on `[1]`. -/
theorem C7_witness :
    tryParse (.manyP (.onlyP (.int 1))) [.int 1] =
      some ⟨true, .list [.int 1], [], []⟩ ∧
    (ParseResult.mk true (.list [.int 1]) [] []).succeeded = true :=
  ⟨by simp [tryParse, manyLoop, fail],
    (C7_many_succeeds (.onlyP (.int 1)) [.int 1] ⟨true, .list [.int 1], [], []⟩
      (by simp [tryParse, manyLoop, fail])).1⟩

/-- Claim C8: `seq(seq(a, b), c)` and `seq(a, b, c)` are the same tree —
construction splices a nested same-kind node's children into the parent's
list — hence produce identical outcomes on every input; and a `seq`/`or_`
built from children respecting the §3 flatness invariant never has a
same-kind flattening combinator as a direct child. -/
theorem C8_flattening (a b c : Parser) (s : List Val) (ps qs : List Parser)
    (hps : ∀ p ∈ ps, seqFlat p) (hqs : ∀ p ∈ qs, orFlat p) :
    tryParse (seqC [seqC [a, b], c]) s = tryParse (seqC [a, b, c]) s ∧
    seqFlat (seqC ps) ∧ orFlat (orC qs) := by
  refine ⟨by rw [seqC_nested], ?_, ?_⟩
  · intro cs t heq q hq
    simp only [seqC] at heq
    injection heq with h1 h2
    subst h1
    exact seqSplice_flat ps hps q hq
  · intro cs heq q hq
    simp only [orC] at heq
    injection heq with h1
    subst h1
    exact orSplice_flat qs hqs q hq

/-- Claim C8, witness: the flattening theorem applied to three `only`
parsers (and singleton flat child lists). -/
theorem C8_witness :
    (∀ p ∈ ([.onlyP (.int 1)] : List Parser), seqFlat p) ∧
    (∀ p ∈ ([.onlyP (.int 1)] : List Parser), orFlat p) ∧
    (tryParse (seqC [seqC [.onlyP (.int 1), .onlyP (.int 2)], .onlyP (.int 3)]) [.int 1] =
      tryParse (seqC [.onlyP (.int 1), .onlyP (.int 2), .onlyP (.int 3)]) [.int 1] ∧
    seqFlat (seqC [.onlyP (.int 1)]) ∧ orFlat (orC [.onlyP (.int 1)])) := by
  have h1 : ∀ p ∈ ([.onlyP (.int 1)] : List Parser), seqFlat p := by
    intro p hp
    rw [List.mem_singleton] at hp
    subst hp
    exact fun cs t heq => Parser.noConfusion heq
  have h2 : ∀ p ∈ ([.onlyP (.int 1)] : List Parser), orFlat p := by
    intro p hp
    rw [List.mem_singleton] at hp
    subst hp
    exact fun cs heq => Parser.noConfusion heq
  exact ⟨h1, h2, C8_flattening (.onlyP (.int 1)) (.onlyP (.int 2)) (.onlyP (.int 3))
    [.int 1] [.onlyP (.int 1)] [.onlyP (.int 1)] h1 h2⟩

/-- Claim C10: if `p` terminates on every input and consumes at least one
element on every successful parse of a non-empty input, then `many(p)`
terminates on every finite input; the loop never applies `p` to an empty
remainder, and `many(p)` on the empty input succeeds immediately with value
`[]`. -/
theorem C10_many_terminates (p : Parser)
    (htotal : ∀ s, (tryParse p s).isSome = true)
    (hcons : ∀ s r, tryParse p s = some r → r.succeeded = true → s ≠ [] →
      r.rest.length < s.length) :
    (∀ s, (tryParse (.manyP p) s).isSome = true) ∧
    tryParse (.manyP p) [] = some ⟨true, .list [], [], []⟩ := by
  constructor
  · intro s
    simp only [tryParse]
    exact manyLoop_total p htotal hcons s.length s [] (le_refl _)
  · simp [tryParse, manyLoop]

/-- Claim C10, witness: the termination theorem applied to `any()`, which
consumes exactly one element whenever it succeeds. -/
theorem C10_witness :
    (∀ s, (tryParse (.anyP .vnone) s).isSome = true) ∧
    (∀ s, (tryParse (.manyP (.anyP .vnone)) s).isSome = true) ∧
    tryParse (.manyP (.anyP .vnone)) [] = some ⟨true, .list [], [], []⟩ := by
  have htotal : ∀ s, (tryParse (.anyP .vnone) s).isSome = true := by
    intro s
    cases s <;> simp [tryParse, fail]
  have hcons : ∀ s r, tryParse (.anyP .vnone) s = some r → r.succeeded = true →
      s ≠ [] → r.rest.length < s.length := by
    intro s r h hs hne
    cases s with
    | nil => exact absurd rfl hne
    | cons x xs =>
      simp only [tryParse, Option.some.injEq] at h
      subst h
      simp
  obtain ⟨ha, hb⟩ := C10_many_terminates (.anyP .vnone) htotal hcons
  exact ⟨htotal, ha, hb⟩
